import Mathlib

/-!
Verification of the contamination-detection core of `sa_decontamination`
(`src/main.rs`): fixed-width window match collection, match grouping by
validation document, interval merging, and the coverage-threshold decision.

Machine integers (`usize`, `u64`) are modelled as `ℕ`; the `f64` threshold
arithmetic of `_check_threshold` is modelled over `ℚ` with the Rust
`as usize` saturating cast modelled by `Int.toNat` (negative values clamp
to zero, matching the saturating float-to-int cast).  Rust `Vec` indexing
and checked conversions that can panic are modelled by `Option`-returning
variants where a claim is about panic freedom.
-/

namespace SADecon

/-! ## Interval merging (`_merge_intervals`, main.rs lines 161-177) -/

/-- The sort step `v.sort_by_key(|(key, _)| key.clone())`: stable sort of the
interval list by start coordinate. -/
def sortIntervals (v : List (ℕ × ℕ)) : List (ℕ × ℕ) :=
  v.mergeSort (fun a b => decide (a.1 ≤ b.1))

/-- The merge loop of `_merge_intervals`.  The Rust code pushes to and pops
from the back of the `merged` vector; here the accumulator is kept in
reverse order, so the vector's last element is the head of `acc`. -/
def mergeLoop : List (ℕ × ℕ) → List (ℕ × ℕ) → List (ℕ × ℕ)
  | acc, [] => acc
  | [], p :: rest => mergeLoop [p] rest
  | (os, oe) :: accT, (s, e) :: rest =>
      if oe ≥ s then mergeLoop ((os, max e oe) :: accT) rest
      else mergeLoop ((s, e) :: (os, oe) :: accT) rest

/-- `_merge_intervals(v, already_sorted)` from main.rs: sort by start unless
already sorted, then coalesce a next interval into the running one exactly
when the running end is `>=` the next start. -/
def _merge_intervals (v : List (ℕ × ℕ)) (already_sorted : Bool) : List (ℕ × ℕ) :=
  (mergeLoop [] (if already_sorted then v else sortIntervals v)).reverse

/-- Structural-recursion presentation of the merge loop on a sorted list;
proved equal to `mergeLoop` below and used for the proofs. -/
def mergeSorted : List (ℕ × ℕ) → List (ℕ × ℕ)
  | [] => []
  | [p] => [p]
  | (s1, e1) :: (s2, e2) :: rest =>
      if e1 ≥ s2 then mergeSorted ((s1, max e2 e1) :: rest)
      else (s1, e1) :: mergeSorted ((s2, e2) :: rest)
termination_by l => l.length

/-- `x` lies in one of the half-open intervals `[s, e)` of `l`. -/
def covers (l : List (ℕ × ℕ)) (x : ℕ) : Prop :=
  ∃ p ∈ l, p.1 ≤ x ∧ x < p.2

/-- Interval `q` starts strictly after interval `p` ends (a strict gap;
touching intervals are not `gapped`). -/
def gapped (p q : ℕ × ℕ) : Prop := p.2 < q.1

/-- The comparison used by the sort step: ordered by interval start. -/
def startLE (p q : ℕ × ℕ) : Prop := p.1 ≤ q.1

instance (l : List (ℕ × ℕ)) (x : ℕ) : Decidable (covers l x) := by
  unfold covers; infer_instance

/-- Total byte width of a list of intervals:
`merged_intervals.iter().map(|(s, e)| e - s).sum()`. -/
def totalWidth (l : List (ℕ × ℕ)) : ℕ :=
  (l.map (fun p => p.2 - p.1)).sum

/-! ## Threshold check (`_check_threshold`, main.rs lines 149-158) -/

/-- `((doc_size as f64) * threshold).ceil() as usize`.  The `f64` product is
modelled exactly over `ℚ`; the saturating `as usize` cast is `Int.toNat`. -/
def requiredCoverage (doc_size : ℕ) (threshold : ℚ) : ℕ :=
  (Int.ceil ((doc_size : ℚ) * threshold)).toNat

/-- `_check_threshold(interval_starts, match_size, doc_size, threshold)`:
build the intervals `[s, s + match_size)`, merge them, and compare the total
merged width with the required coverage. -/
def _check_threshold (interval_starts : List ℕ) (match_size doc_size : ℕ)
    (threshold : ℚ) : Bool :=
  let usize_threshold := requiredCoverage doc_size threshold
  let intervals := interval_starts.map (fun start => (start, start + match_size))
  let merged_intervals := _merge_intervals intervals false
  decide (totalWidth merged_intervals ≥ usize_threshold)

/-! ## Decider (`merge_matches`, main.rs lines 131-146) -/

/-- `merge_matches`: iterate the per-document match map (modelled as an
association list of entries `((train_path_id, line_num), interval_starts)`)
and push a record `(val_doc_id, train_path_id, line_num)` for each entry
passing `_check_threshold`. -/
def merge_matches (val_doc_id : ℕ) (doc_matches : List ((ℕ × ℕ) × List ℕ))
    (match_size val_doc_size : ℕ) (threshold : ℚ) : List (ℕ × ℕ × ℕ) :=
  doc_matches.foldl
    (fun output entry =>
      if _check_threshold entry.2 match_size val_doc_size threshold then
        output ++ [(val_doc_id, entry.1.1, entry.1.2)]
      else output)
    []

/-- Phase 2 of `mark_contaminates` (main.rs lines 264-269): flat-map
`merge_matches` over all outer groups `((val_doc_id, val_doc_size), inner)`. -/
def mark_decide (groups : List ((ℕ × ℕ) × List ((ℕ × ℕ) × List ℕ)))
    (match_size : ℕ) (threshold : ℚ) : List (ℕ × ℕ × ℕ) :=
  groups.flatMap (fun entry => merge_matches entry.1.1 entry.2 match_size entry.1.2 threshold)

/-! ## Grouping phase of `mark_contaminates` (main.rs lines 241-256) -/

/-- Modelled from the spec: `doc_lookup` lives in `crate::dedup`, which is not
part of the provided source.  Per the spec (§4.1, `locate_document`) it is a
binary search returning the unique `i` with
`boundaries[i] <= position < boundaries[i+1]`; modelled as a linear search
for that `i`.  The spec leaves the result undefined when no such `i` exists;
the model then returns `bs.length`. -/
def doc_lookup (pos : ℕ) (bs : List ℕ) : ℕ :=
  match (List.range bs.length).find? (fun i =>
      match bs.get? i, bs.get? (i + 1) with
      | some lo, some hi => decide (lo ≤ pos) && decide (pos < hi)
      | _, _ => false) with
  | some i => i
  | none => bs.length

/-- The per-match resolution of the grouping loop body (main.rs lines 248-251):
`val_doc_id = doc_lookup(sa_pos, size_object)`,
`in_doc_pos = sa_pos - size_object[val_doc_id]`,
`val_doc_size = size_object[val_doc_id+1] - size_object[val_doc_id]`.
A raw match is `(path_id, line_num, sa_pos)`; the result is
`((val_doc_id, val_doc_size), (path_id, line_num), in_doc_pos)`.  Vector
indexing is modelled total with `getD _ 0`; the panicking accesses are
modelled separately by `markStepChecked`. -/
def resolveMatch (bs : List ℕ) (mt : ℕ × ℕ × ℕ) : (ℕ × ℕ) × (ℕ × ℕ) × ℕ :=
  let val_doc_id := doc_lookup mt.2.2 bs
  let in_doc_pos := mt.2.2 - bs.getD val_doc_id 0
  let val_doc_size := bs.getD (val_doc_id + 1) 0 - bs.getD val_doc_id 0
  ((val_doc_id, val_doc_size), (mt.1, mt.2.1), in_doc_pos)

/-- Panic-aware model of one grouping-loop iteration: `Vec` indexing out of
bounds, `u64` subtraction underflow, and a failing `try_into::<usize>()`
(value not below `2^64`; on the 64-bit target `usize` is 64 bits wide) all
abort, modelled as `none`. -/
def markStepChecked (bs : List ℕ) (mt : ℕ × ℕ × ℕ) :
    Option ((ℕ × ℕ) × (ℕ × ℕ) × ℕ) :=
  let val_doc_id := doc_lookup mt.2.2 bs
  match bs.get? val_doc_id, bs.get? (val_doc_id + 1) with
  | some lo, some hi =>
      if lo ≤ mt.2.2 then
        if lo ≤ hi then
          if hi - lo < 2 ^ 64 then
            some ((val_doc_id, hi - lo), (mt.1, mt.2.1), mt.2.2 - lo)
          else none
        else none
      else none
  | _, _ => none

/-- The nested `DashMap<(usize, usize), DashMap<(usize, usize), Vec<u64>>>`,
modelled as an association list of association lists. -/
abbrev Groups := List ((ℕ × ℕ) × List ((ℕ × ℕ) × List ℕ))

/-- `entry(ik).or_default().push(x)` on the inner map. -/
def pushInner (ik : ℕ × ℕ) (x : ℕ) : List ((ℕ × ℕ) × List ℕ) → List ((ℕ × ℕ) × List ℕ)
  | [] => [(ik, [x])]
  | e :: rest => if e.1 = ik then (e.1, e.2 ++ [x]) :: rest else e :: pushInner ik x rest

/-- `entry(ok).or_default()` on the outer map followed by the inner push. -/
def pushOuter (ok ik : ℕ × ℕ) (x : ℕ) : Groups → Groups
  | [] => [(ok, pushInner ik x [])]
  | e :: rest => if e.1 = ok then (e.1, pushInner ik x e.2) :: rest else e :: pushOuter ok ik x rest

/-- Inner-map lookup (first entry with the key); absent keys read as the
empty list. -/
def lookupInner (ik : ℕ × ℕ) : List ((ℕ × ℕ) × List ℕ) → List ℕ
  | [] => []
  | e :: rest => if e.1 = ik then e.2 else lookupInner ik rest

/-- Outer-map lookup (first entry with the key); absent keys read as the
empty inner map. -/
def lookupOuter (ok : ℕ × ℕ) : Groups → List ((ℕ × ℕ) × List ℕ)
  | [] => []
  | e :: rest => if e.1 = ok then e.2 else lookupOuter ok rest

/-- The offset list stored under outer key `ok` and inner key `ik`. -/
def lookupGroup (ok ik : ℕ × ℕ) (g : Groups) : List ℕ :=
  lookupInner ik (lookupOuter ok g)

/-- One iteration of the grouping loop (main.rs lines 248-255). -/
def markStep (bs : List ℕ) (g : Groups) (mt : ℕ × ℕ × ℕ) : Groups :=
  let r := resolveMatch bs mt
  pushOuter r.1 r.2.1 r.2.2 g

/-- Phase 1 of `mark_contaminates`: fold the grouping step over all raw
matches.  The Rust loop is a parallel `for_each` into the `DashMap`; the
resulting map content is modelled by a sequential fold. -/
def group_matches (ms : List (ℕ × ℕ × ℕ)) (bs : List ℕ) : Groups :=
  ms.foldl (markStep bs) []

/-- Total number of offsets stored across all groups. -/
def totalEntries (g : Groups) : ℕ :=
  (g.map (fun e => ((e.2.map (fun i => i.2.length)).sum))).sum

/-! ## Match collection (`collect_matches`, main.rs lines 101-123) -/

/-- Failure modes of a run.  `configError` is the spec's §7 ConfigError (an
invalid run-parameter combination reported as an error value); `panicked`
models a Rust panic aborting the process. -/
inductive RunError where
  | configError : RunError
  | panicked : RunError
deriving DecidableEq

/-- Rust `slice::windows(match_size)`: panics (`none`) when the window size
is zero, otherwise yields the `len + 1 - match_size` (truncated subtraction)
contiguous windows of length `match_size` in offset order. -/
def windows (l : List ℕ) (match_size : ℕ) : Option (List (List ℕ)) :=
  if match_size = 0 then none
  else some ((List.range (l.length + 1 - match_size)).map (fun i => (l.drop i).take match_size))

/-- The per-line body of `collect_matches`: for each window, query the index
for occurrences (`get_occurrences_memory`, external to src/, abstracted as
the function parameter `occ`) and emit `(path_idx, line_num, text_idx)` per
occurrence. -/
def collectLine (occ : List ℕ → List ℕ) (path_idx line_num : ℕ)
    (line_text : List ℕ) (match_size : ℕ) : Except RunError (List (ℕ × ℕ × ℕ)) :=
  match windows line_text match_size with
  | none => Except.error RunError.panicked
  | some ws =>
      Except.ok (ws.foldl
        (fun output query => output ++ (occ query).map (fun text_idx => (path_idx, line_num, text_idx)))
        [])

/-- `collect_matches` over a document's lines (line texts already extracted
from the JSON records). -/
def collect_matches (occ : List ℕ → List ℕ) (path_idx : ℕ)
    (lines : List (List ℕ)) (match_size : ℕ) : Except RunError (List (ℕ × ℕ × ℕ)) :=
  lines.enum.foldlM
    (fun output e => do
      let r ← collectLine occ path_idx e.1 e.2 match_size
      pure (output ++ r))
    []

/-! ## Basic lemmas about coverage and the sort step -/

theorem covers_nil (x : ℕ) : ¬ covers [] x := by
  simp [covers]

theorem covers_cons {p : ℕ × ℕ} {l : List (ℕ × ℕ)} {x : ℕ} :
    covers (p :: l) x ↔ (p.1 ≤ x ∧ x < p.2) ∨ covers l x := by
  simp [covers, or_and_right, exists_or]

theorem covers_of_perm {l1 l2 : List (ℕ × ℕ)} (h : l1.Perm l2) (x : ℕ) :
    covers l1 x ↔ covers l2 x := by
  unfold covers
  constructor
  · rintro ⟨p, hp, hx⟩; exact ⟨p, h.mem_iff.mp hp, hx⟩
  · rintro ⟨p, hp, hx⟩; exact ⟨p, h.mem_iff.mpr hp, hx⟩

theorem totalWidth_of_perm {l1 l2 : List (ℕ × ℕ)} (h : l1.Perm l2) :
    totalWidth l1 = totalWidth l2 := by
  unfold totalWidth
  exact (h.map (fun p => p.2 - p.1)).sum_eq

theorem sortIntervals_perm (v : List (ℕ × ℕ)) : (sortIntervals v).Perm v :=
  List.mergeSort_perm v _

theorem sortIntervals_sorted (v : List (ℕ × ℕ)) :
    (sortIntervals v).Pairwise startLE := by
  have h := @List.sorted_mergeSort (ℕ × ℕ) (fun a b => decide (a.1 ≤ b.1))
    (fun a b c hab hbc => by
      simp only [decide_eq_true_eq] at *; omega)
    (fun a b => by
      simp only [Bool.or_eq_true, decide_eq_true_eq]; omega)
    v
  exact h.imp (fun hab => by simpa [startLE] using hab)

/-! ## The merge loop -/

theorem mergeLoop_eq (v : List (ℕ × ℕ)) :
    ∀ (p : ℕ × ℕ) (acc : List (ℕ × ℕ)),
      mergeLoop (p :: acc) v = (mergeSorted (p :: v)).reverse ++ acc := by
  induction v with
  | nil => intro p acc; simp [mergeLoop, mergeSorted]
  | cons q rest ih =>
      rintro ⟨os, oe⟩ acc
      obtain ⟨s, e⟩ := q
      by_cases h : oe ≥ s
      · rw [show mergeLoop ((os, oe) :: acc) ((s, e) :: rest)
              = mergeLoop ((os, max e oe) :: acc) rest from by simp [mergeLoop, h],
          ih, show mergeSorted ((os, oe) :: (s, e) :: rest)
              = mergeSorted ((os, max e oe) :: rest) from by
            rw [mergeSorted]; simp [h]]
      · rw [show mergeLoop ((os, oe) :: acc) ((s, e) :: rest)
              = mergeLoop ((s, e) :: (os, oe) :: acc) rest from by simp [mergeLoop, h],
          ih, show mergeSorted ((os, oe) :: (s, e) :: rest)
              = (os, oe) :: mergeSorted ((s, e) :: rest) from by
            rw [mergeSorted]; simp [h]]
        simp

theorem merge_intervals_eq (v : List (ℕ × ℕ)) (b : Bool) :
    _merge_intervals v b = mergeSorted (if b then v else sortIntervals v) := by
  have key : ∀ w : List (ℕ × ℕ), (mergeLoop [] w).reverse = mergeSorted w := by
    intro w
    cases w with
    | nil => simp [mergeLoop, mergeSorted]
    | cons p rest =>
        rw [show mergeLoop [] (p :: rest) = mergeLoop [p] rest from by cases p; rfl,
          mergeLoop_eq]
        simp
  unfold _merge_intervals
  exact key _

/-! ## Structure of the merged interval list -/

theorem mergeSorted_cons_start (l : List (ℕ × ℕ)) :
    ∀ s e : ℕ, ∃ e' tl, mergeSorted ((s, e) :: l) = (s, e') :: tl := by
  induction l with
  | nil => intro s e; exact ⟨e, [], by rw [mergeSorted]⟩
  | cons q rest ih =>
      intro s e
      obtain ⟨s2, e2⟩ := q
      by_cases h : e ≥ s2
      · obtain ⟨e', tl, htl⟩ := ih s (max e2 e)
        exact ⟨e', tl, by rw [mergeSorted]; simpa [h] using htl⟩
      · exact ⟨e, mergeSorted ((s2, e2) :: rest), by rw [mergeSorted]; simp [h]⟩

theorem mergeSorted_nonempty (v : List (ℕ × ℕ)) :
    (∀ p ∈ v, p.1 < p.2) → ∀ p ∈ mergeSorted v, p.1 < p.2 := by
  induction v using mergeSorted.induct with
  | case1 => intro _ p hp; simp [mergeSorted] at hp
  | case2 q => intro h p hp; rw [mergeSorted] at hp; simp at hp; subst hp; exact h _ (by simp)
  | case3 s1 e1 s2 e2 rest h ih =>
      intro hne p hp
      rw [mergeSorted] at hp
      simp only [ge_iff_le, h, if_true] at hp
      refine ih ?_ p hp
      intro q hq
      rcases List.mem_cons.mp hq with rfl | hq
      · have := hne (s1, e1) (by simp)
        simp only at this ⊢
        omega
      · exact hne q (by simp [hq])
  | case4 s1 e1 s2 e2 rest h ih =>
      intro hne p hp
      rw [mergeSorted] at hp
      simp only [ge_iff_le, h, if_false] at hp
      rcases List.mem_cons.mp hp with rfl | hp
      · exact hne _ (by simp)
      · exact ih (fun q hq => hne q (by simp [List.mem_cons.mp hq])) p hp

theorem mergeSorted_chain (v : List (ℕ × ℕ)) :
    v.Pairwise startLE → List.Chain' gapped (mergeSorted v) := by
  induction v using mergeSorted.induct with
  | case1 => intro _; rw [mergeSorted]; simp
  | case2 q => intro _; rw [mergeSorted]; simp
  | case3 s1 e1 s2 e2 rest h ih =>
      intro hs
      rw [mergeSorted]
      simp only [ge_iff_le, h, if_true]
      refine ih ?_
      rcases List.pairwise_cons.mp hs with ⟨h1, hs'⟩
      rcases List.pairwise_cons.mp hs' with ⟨h2, hs''⟩
      exact List.pairwise_cons.mpr ⟨fun q hq => h1 q (by simp [hq]), hs''⟩
  | case4 s1 e1 s2 e2 rest h ih =>
      intro hs
      rw [mergeSorted]
      simp only [ge_iff_le, h, if_false]
      rcases List.pairwise_cons.mp hs with ⟨_, hs'⟩
      have hchain := ih hs'
      obtain ⟨e', tl, htl⟩ := mergeSorted_cons_start rest s2 e2
      rw [htl] at hchain ⊢
      exact List.chain'_cons.mpr ⟨by unfold gapped; omega, hchain⟩

theorem mergeSorted_covers (v : List (ℕ × ℕ)) :
    v.Pairwise startLE → ∀ x : ℕ, covers (mergeSorted v) x ↔ covers v x := by
  induction v using mergeSorted.induct with
  | case1 => intro _ x; rw [mergeSorted]
  | case2 q => intro _ x; rw [mergeSorted]
  | case3 s1 e1 s2 e2 rest h ih =>
      intro hs x
      rw [mergeSorted]
      simp only [ge_iff_le, h, if_true]
      rcases List.pairwise_cons.mp hs with ⟨h1, hs'⟩
      rcases List.pairwise_cons.mp hs' with ⟨h2, hs''⟩
      have h12 : s1 ≤ s2 := h1 (s2, e2) (by simp)
      rw [ih (List.pairwise_cons.mpr ⟨fun q hq => h1 q (by simp [hq]), hs''⟩) x]
      rw [covers_cons, covers_cons, covers_cons]
      constructor
      · rintro (hx | hx)
        · simp only at hx
          rcases Nat.lt_or_ge x e1 with hlt | hge
          · exact Or.inl ⟨hx.1, hlt⟩
          · refine Or.inr (Or.inl ⟨by omega, by omega⟩)
        · exact Or.inr (Or.inr hx)
      · rintro (hx | hx | hx)
        · exact Or.inl ⟨hx.1, by simp only; omega⟩
        · exact Or.inl ⟨by omega, by simp only; omega⟩
        · exact Or.inr hx
  | case4 s1 e1 s2 e2 rest h ih =>
      intro hs x
      rw [mergeSorted]
      simp only [ge_iff_le, h, if_false]
      rcases List.pairwise_cons.mp hs with ⟨_, hs'⟩
      rw [covers_cons, covers_cons, ih hs' x]

theorem mergeSorted_width_le (v : List (ℕ × ℕ)) :
    v.Pairwise startLE → totalWidth (mergeSorted v) ≤ totalWidth v := by
  induction v using mergeSorted.induct with
  | case1 => intro _; rw [mergeSorted]
  | case2 q => intro _; rw [mergeSorted]
  | case3 s1 e1 s2 e2 rest h ih =>
      intro hs
      rw [mergeSorted]
      simp only [ge_iff_le, h, if_true]
      rcases List.pairwise_cons.mp hs with ⟨h1, hs'⟩
      rcases List.pairwise_cons.mp hs' with ⟨h2, hs''⟩
      have h12 : s1 ≤ s2 := h1 (s2, e2) (by simp)
      have hle := ih (List.pairwise_cons.mpr ⟨fun q hq => h1 q (by simp [hq]), hs''⟩)
      unfold totalWidth at hle ⊢
      simp only [List.map_cons, List.sum_cons] at hle ⊢
      omega
  | case4 s1 e1 s2 e2 rest h ih =>
      intro hs
      rw [mergeSorted]
      simp only [ge_iff_le, h, if_false]
      rcases List.pairwise_cons.mp hs with ⟨_, hs'⟩
      have hle := ih hs'
      unfold totalWidth at hle ⊢
      simp only [List.map_cons, List.sum_cons] at hle ⊢
      omega

/-! ## Gap-separated interval lists: pairwise separation, canonicity,
minimality -/

theorem chain_gapped_pairwise (l : List (ℕ × ℕ)) :
    (∀ p ∈ l, p.1 < p.2) → List.Chain' gapped l → l.Pairwise gapped := by
  induction l with
  | nil => intro _ _; simp
  | cons p t ih =>
      intro hne hc
      rcases List.chain'_cons'.mp hc with ⟨hhead, ht⟩
      have hpt : t.Pairwise gapped := ih (fun q hq => hne q (by simp [hq])) ht
      refine List.pairwise_cons.mpr ⟨?_, hpt⟩
      intro q hq
      cases t with
      | nil => simp at hq
      | cons r t' =>
          have hpr : gapped p r := hhead r rfl
          rcases List.mem_cons.mp hq with rfl | hq'
          · exact hpr
          · have hrq : gapped r q := (List.pairwise_cons.mp hpt).1 q hq'
            have hrne : r.1 < r.2 := hne r (by simp)
            unfold gapped at *
            omega

theorem endpoint_not_covered (l : List (ℕ × ℕ)) (hg : l.Pairwise gapped)
    (hne : ∀ p ∈ l, p.1 < p.2) : ∀ p ∈ l, ¬ covers l p.2 := by
  intro p hp hcov
  obtain ⟨i, hi, hip⟩ := List.mem_iff_getElem.mp hp
  obtain ⟨q, hq, hxq⟩ := hcov
  obtain ⟨j, hj, hjq⟩ := List.mem_iff_getElem.mp hq
  have hpg := List.pairwise_iff_getElem.mp hg
  rcases Nat.lt_trichotomy i j with hij | hij | hij
  · have := hpg i j hi hj hij
    rw [hip, hjq] at this
    unfold gapped at this
    omega
  · subst hij
    rw [hip] at hjq
    subst hjq
    omega
  · have := hpg j i hj hi hij
    rw [hip, hjq] at this
    have hne' : p.1 < p.2 := hne p hp
    unfold gapped at this
    omega

theorem covered_ge_head_start (q : ℕ × ℕ) (m : List (ℕ × ℕ))
    (hg : (q :: m).Pairwise gapped) (hne : ∀ p ∈ q :: m, p.1 < p.2)
    (x : ℕ) (hx : covers (q :: m) x) : q.1 ≤ x := by
  rcases covers_cons.mp hx with hx | hx
  · exact hx.1
  · obtain ⟨r, hr, hxr⟩ := hx
    have hqr : gapped q r := (List.pairwise_cons.mp hg).1 r hr
    have hqne : q.1 < q.2 := hne q (by simp)
    unfold gapped at hqr
    omega

theorem gap_lists_unique :
    ∀ (l1 l2 : List (ℕ × ℕ)), l1.Pairwise gapped → l2.Pairwise gapped →
      (∀ p ∈ l1, p.1 < p.2) → (∀ p ∈ l2, p.1 < p.2) →
      (∀ x, covers l1 x ↔ covers l2 x) → l1 = l2 := by
  intro l1
  induction l1 with
  | nil =>
      intro l2 _ _ _ hne2 hcov
      cases l2 with
      | nil => rfl
      | cons q t =>
          exfalso
          have hq : covers (q :: t) q.1 :=
            covers_cons.mpr (Or.inl ⟨le_refl _, hne2 q (by simp)⟩)
          exact covers_nil q.1 ((hcov q.1).mpr hq)
  | cons p t1 ih =>
      intro l2 hg1 hg2 hne1 hne2 hcov
      cases l2 with
      | nil =>
          exfalso
          have hp : covers (p :: t1) p.1 :=
            covers_cons.mpr (Or.inl ⟨le_refl _, hne1 p (by simp)⟩)
          exact covers_nil p.1 ((hcov p.1).mp hp)
      | cons q t2 =>
          have hpne : p.1 < p.2 := hne1 p (by simp)
          have hqne : q.1 < q.2 := hne2 q (by simp)
          have hp1 : covers (q :: t2) p.1 :=
            (hcov p.1).mp (covers_cons.mpr (Or.inl ⟨le_refl _, hpne⟩))
          have hq1 : covers (p :: t1) q.1 :=
            (hcov q.1).mpr (covers_cons.mpr (Or.inl ⟨le_refl _, hqne⟩))
          have hstart : p.1 = q.1 :=
            Nat.le_antisymm
              (covered_ge_head_start p t1 hg1 hne1 q.1 hq1)
              (covered_ge_head_start q t2 hg2 hne2 p.1 hp1)
          have hend : p.2 = q.2 := by
            by_contra hne'
            rcases Nat.lt_or_ge p.2 q.2 with hlt | hge
            · have hcovq : covers (q :: t2) p.2 :=
                covers_cons.mpr (Or.inl ⟨by omega, hlt⟩)
              exact endpoint_not_covered (p :: t1) hg1 hne1 p (by simp)
                ((hcov p.2).mpr hcovq)
            · have hlt : q.2 < p.2 := by omega
              have hcovp : covers (p :: t1) q.2 :=
                covers_cons.mpr (Or.inl ⟨by omega, hlt⟩)
              exact endpoint_not_covered (q :: t2) hg2 hne2 q (by simp)
                ((hcov q.2).mp hcovp)
          have hpq : p = q := Prod.ext hstart hend
          subst hpq
          have htcov : ∀ x, covers t1 x ↔ covers t2 x := by
            intro x
            have key : ∀ (t : List (ℕ × ℕ)), (p :: t).Pairwise gapped →
                (∀ r ∈ p :: t, r.1 < r.2) → covers t x → p.2 < x := by
              intro t hg hne hx
              obtain ⟨r, hr, hxr⟩ := hx
              have : gapped p r := (List.pairwise_cons.mp hg).1 r hr
              unfold gapped at this
              omega
            constructor
            · intro hx
              have hx2 : p.2 < x := key t1 hg1 hne1 hx
              have : covers (p :: t2) x :=
                (hcov x).mp (covers_cons.mpr (Or.inr hx))
              rcases covers_cons.mp this with hpx | hx'
              · omega
              · exact hx'
            · intro hx
              have hx2 : p.2 < x := key t2 hg2 hne2 hx
              have : covers (p :: t1) x :=
                (hcov x).mpr (covers_cons.mpr (Or.inr hx))
              rcases covers_cons.mp this with hpx | hx'
              · omega
              · exact hx'
          have := ih t2 (List.pairwise_cons.mp hg1).2 (List.pairwise_cons.mp hg2).2
            (fun r hr => hne1 r (by simp [hr])) (fun r hr => hne2 r (by simp [hr])) htcov
          rw [this]

theorem gap_list_minimal (out w : List (ℕ × ℕ)) (hg : out.Pairwise gapped)
    (hne : ∀ p ∈ out, p.1 < p.2) (hcov : ∀ x, covers w x ↔ covers out x) :
    out.length ≤ w.length := by
  classical
  have hex : ∀ i : Fin out.length, ∃ j : Fin w.length,
      w[j.1].1 ≤ out[i.1].1 ∧ out[i.1].1 < w[j.1].2 := by
    intro i
    have hm : out[i.1] ∈ out := List.getElem_mem _
    have hc : covers out out[i.1].1 :=
      ⟨out[i.1], hm, le_refl _, hne _ hm⟩
    obtain ⟨q, hq, hxq⟩ := (hcov _).mpr hc
    obtain ⟨j, hj, hjq⟩ := List.mem_iff_getElem.mp hq
    exact ⟨⟨j, hj⟩, by rw [hjq]; exact hxq.1, by rw [hjq]; exact hxq.2⟩
  choose f hf using hex
  have hpg := List.pairwise_iff_getElem.mp hg
  have hlt : ∀ i j : Fin out.length, i.1 < j.1 → f i ≠ f j := by
    intro i j hij heq
    have hgij : gapped out[i.1] out[j.1] := hpg i.1 j.1 i.2 j.2 hij
    unfold gapped at hgij
    have hi1 := hf i
    have hj1 := hf j
    rw [heq] at hi1
    -- the interval w[f j] covers both heads, hence also the gap point
    -- out[i].2, which `out` does not cover
    have hine : out[i.1].1 < out[i.1].2 := hne _ (List.getElem_mem _)
    have hcovgap : covers w out[i.1].2 :=
      ⟨w[(f j).1], List.getElem_mem _, by omega, by omega⟩
    exact endpoint_not_covered out hg hne out[i.1] (List.getElem_mem _)
      ((hcov _).mp hcovgap)
  have hinj : Function.Injective f := by
    intro i j heq
    by_contra hne'
    rcases Nat.lt_or_ge i.1 j.1 with h | h
    · exact hlt i j h heq
    · have : j.1 < i.1 := by
        rcases Nat.lt_or_ge j.1 i.1 with h' | h'
        · exact h'
        · exact absurd (Fin.ext (Nat.le_antisymm h' h)) hne'
      exact hlt j i this heq.symm
  calc out.length = Fintype.card (Fin out.length) := (Fintype.card_fin _).symm
    _ ≤ Fintype.card (Fin w.length) := Fintype.card_le_of_injective f hinj
    _ = w.length := Fintype.card_fin _

/-! ## Bundled properties of `_merge_intervals v false` -/

theorem merged_props (v : List (ℕ × ℕ)) (hne : ∀ p ∈ v, p.1 < p.2) :
    List.Chain' gapped (_merge_intervals v false)
    ∧ (∀ p ∈ _merge_intervals v false, p.1 < p.2)
    ∧ (∀ x, covers (_merge_intervals v false) x ↔ covers v x)
    ∧ (_merge_intervals v false).Pairwise gapped := by
  have heq : _merge_intervals v false = mergeSorted (sortIntervals v) :=
    merge_intervals_eq v false
  have hsorted := sortIntervals_sorted v
  have hperm := sortIntervals_perm v
  have hne' : ∀ p ∈ sortIntervals v, p.1 < p.2 :=
    fun p hp => hne p (hperm.mem_iff.mp hp)
  have hchain : List.Chain' gapped (_merge_intervals v false) := by
    rw [heq]; exact mergeSorted_chain _ hsorted
  have hne'' : ∀ p ∈ _merge_intervals v false, p.1 < p.2 := by
    rw [heq]; exact mergeSorted_nonempty _ hne'
  have hcov : ∀ x, covers (_merge_intervals v false) x ↔ covers v x := by
    intro x
    rw [heq, mergeSorted_covers _ hsorted x]
    exact covers_of_perm hperm x
  exact ⟨hchain, hne'', hcov, chain_gapped_pairwise _ hne'' hchain⟩

theorem merged_width_le (v : List (ℕ × ℕ)) :
    totalWidth (_merge_intervals v false) ≤ totalWidth v := by
  rw [merge_intervals_eq v false]
  simp only [Bool.false_eq_true, if_false]
  exact le_trans (mergeSorted_width_le _ (sortIntervals_sorted v))
    (le_of_eq (totalWidth_of_perm (sortIntervals_perm v)))

/-- Coverage of the interval list built from start offsets. -/
theorem covers_offsets (L : List ℕ) (m x : ℕ) :
    covers (L.map (fun s => (s, s + m))) x ↔ ∃ s ∈ L, s ≤ x ∧ x < s + m := by
  simp [covers]

/-! ## The threshold check and the decider -/

theorem check_threshold_iff (L : List ℕ) (m ds : ℕ) (th : ℚ) :
    _check_threshold L m ds th = true ↔
      requiredCoverage ds th ≤
        totalWidth (_merge_intervals (L.map fun s => (s, s + m)) false) := by
  simp [_check_threshold, ge_iff_le]

theorem requiredCoverage_mono (ds : ℕ) {t1 t2 : ℚ} (h : t1 ≤ t2) :
    requiredCoverage ds t1 ≤ requiredCoverage ds t2 := by
  unfold requiredCoverage
  have hmul : (ds : ℚ) * t1 ≤ (ds : ℚ) * t2 :=
    mul_le_mul_of_nonneg_left h (by positivity)
  exact Int.toNat_le_toNat (Int.ceil_mono hmul)

theorem requiredCoverage_neg (ds : ℕ) {th : ℚ} (h : th < 0) :
    requiredCoverage ds th = 0 := by
  unfold requiredCoverage
  have h1 : (ds : ℚ) * th ≤ 0 := mul_nonpos_of_nonneg_of_nonpos (by positivity) h.le
  have h2 : Int.ceil ((ds : ℚ) * th) ≤ 0 := Int.ceil_le.mpr (by simpa using h1)
  exact Int.toNat_of_nonpos h2

theorem merge_matches_eq_filter (v : ℕ) (gm : List ((ℕ × ℕ) × List ℕ))
    (m ds : ℕ) (th : ℚ) :
    merge_matches v gm m ds th =
      (gm.filter (fun e => _check_threshold e.2 m ds th)).map
        (fun e => (v, e.1.1, e.1.2)) := by
  suffices h : ∀ (l : List ((ℕ × ℕ) × List ℕ)) (acc : List (ℕ × ℕ × ℕ)),
      l.foldl
        (fun output entry =>
          if _check_threshold entry.2 m ds th then
            output ++ [(v, entry.1.1, entry.1.2)]
          else output)
        acc
      = acc ++ (l.filter (fun e => _check_threshold e.2 m ds th)).map
          (fun e => (v, e.1.1, e.1.2)) by
    simpa [merge_matches] using h gm []
  intro l
  induction l with
  | nil => intro acc; simp
  | cons e rest ih =>
      intro acc
      by_cases hc : _check_threshold e.2 m ds th
      · simp [List.foldl_cons, hc, ih, List.filter_cons]
      · simp [List.foldl_cons, hc, ih, List.filter_cons]

theorem mem_merge_matches {v : ℕ} {gm : List ((ℕ × ℕ) × List ℕ)} {m ds : ℕ}
    {th : ℚ} {r : ℕ × ℕ × ℕ} :
    r ∈ merge_matches v gm m ds th ↔
      ∃ e ∈ gm, _check_threshold e.2 m ds th = true ∧ r = (v, e.1.1, e.1.2) := by
  rw [merge_matches_eq_filter]
  simp only [List.mem_map, List.mem_filter]
  constructor
  · rintro ⟨e, ⟨he, hc⟩, rfl⟩; exact ⟨e, he, hc, rfl⟩
  · rintro ⟨e, he, hc, rfl⟩; exact ⟨e, ⟨he, hc⟩, rfl⟩

/-! ## Grouping lemmas -/

theorem lookupInner_pushInner (ik ik' : ℕ × ℕ) (x : ℕ)
    (l : List ((ℕ × ℕ) × List ℕ)) :
    lookupInner ik (pushInner ik' x l) =
      if ik' = ik then lookupInner ik l ++ [x] else lookupInner ik l := by
  induction l with
  | nil =>
      by_cases h : ik' = ik
      · simp [pushInner, lookupInner, h]
      · simp [pushInner, lookupInner, h]
  | cons e rest ih =>
      by_cases he : e.1 = ik'
      · by_cases h : ik' = ik
        · simp [pushInner, lookupInner, he, h, he.trans h]
        · have : ¬ (e.1 = ik) := by rw [he]; exact h
          simp [pushInner, lookupInner, he, h, this]
      · by_cases hek : e.1 = ik
        · have h1 : ¬ (ik' = ik) := fun hc => he (hek.trans hc.symm)
          have h2 : ¬ (ik = ik') := fun hc => h1 hc.symm
          simp [pushInner, lookupInner, he, hek, h1, h2]
        · simp [pushInner, lookupInner, he, hek, ih]

theorem lookupOuter_pushOuter (ok ok' ik : ℕ × ℕ) (x : ℕ) (g : Groups) :
    lookupOuter ok (pushOuter ok' ik x g) =
      if ok' = ok then pushInner ik x (lookupOuter ok g) else lookupOuter ok g := by
  induction g with
  | nil =>
      by_cases h : ok' = ok
      · simp [pushOuter, lookupOuter, h]
      · simp [pushOuter, lookupOuter, h]
  | cons e rest ih =>
      by_cases he : e.1 = ok'
      · by_cases h : ok' = ok
        · simp [pushOuter, lookupOuter, he, h, he.trans h]
        · have : ¬ (e.1 = ok) := by rw [he]; exact h
          simp [pushOuter, lookupOuter, he, h, this]
      · by_cases hek : e.1 = ok
        · have h1 : ¬ (ok' = ok) := fun hc => he (hek.trans hc.symm)
          have h2 : ¬ (ok = ok') := fun hc => h1 hc.symm
          simp [pushOuter, lookupOuter, he, hek, h1, h2]
        · simp [pushOuter, lookupOuter, he, hek, ih]

theorem lookupGroup_pushOuter (ok ik ok' ik' : ℕ × ℕ) (x : ℕ) (g : Groups) :
    lookupGroup ok ik (pushOuter ok' ik' x g) =
      if ok' = ok ∧ ik' = ik then lookupGroup ok ik g ++ [x]
      else lookupGroup ok ik g := by
  unfold lookupGroup
  rw [lookupOuter_pushOuter]
  by_cases h1 : ok' = ok
  · rw [if_pos h1, lookupInner_pushInner]
    by_cases h2 : ik' = ik
    · simp [h1, h2]
    · simp [h1, h2]
  · simp [h1]

theorem innerSum_pushInner (ik : ℕ × ℕ) (x : ℕ) (l : List ((ℕ × ℕ) × List ℕ)) :
    ((pushInner ik x l).map (fun i => i.2.length)).sum =
      ((l.map (fun i => i.2.length)).sum) + 1 := by
  induction l with
  | nil => simp [pushInner]
  | cons e rest ih =>
      by_cases he : e.1 = ik
      · simp [pushInner, he]; omega
      · simp [pushInner, he, ih]; omega

theorem totalEntries_pushOuter (ok ik : ℕ × ℕ) (x : ℕ) (g : Groups) :
    totalEntries (pushOuter ok ik x g) = totalEntries g + 1 := by
  induction g with
  | nil => simp [pushOuter, totalEntries, innerSum_pushInner]
  | cons e rest ih =>
      by_cases he : e.1 = ok
      · simp [pushOuter, totalEntries, he, innerSum_pushInner]; omega
      · simp only [pushOuter, he, if_false, totalEntries, List.map_cons,
          List.sum_cons] at ih ⊢
        omega

theorem group_matches_lookup (ms : List (ℕ × ℕ × ℕ)) (bs : List ℕ)
    (ok ik : ℕ × ℕ) :
    lookupGroup ok ik (group_matches ms bs) =
      (ms.filter (fun mt =>
          decide ((resolveMatch bs mt).1 = ok) && decide ((resolveMatch bs mt).2.1 = ik))).map
        (fun mt => (resolveMatch bs mt).2.2) := by
  suffices h : ∀ (l : List (ℕ × ℕ × ℕ)) (g : Groups),
      lookupGroup ok ik (l.foldl (markStep bs) g) =
        lookupGroup ok ik g ++
          (l.filter (fun mt =>
              decide ((resolveMatch bs mt).1 = ok) && decide ((resolveMatch bs mt).2.1 = ik))).map
            (fun mt => (resolveMatch bs mt).2.2) by
    have := h ms []
    simpa [group_matches, lookupGroup, lookupOuter, lookupInner] using this
  intro l
  induction l with
  | nil => intro g; simp
  | cons mt rest ih =>
      intro g
      rw [List.foldl_cons, ih]
      show lookupGroup ok ik (markStep bs g mt) ++ _ = _
      unfold markStep
      rw [lookupGroup_pushOuter]
      by_cases h1 : (resolveMatch bs mt).1 = ok
      · by_cases h2 : (resolveMatch bs mt).2.1 = ik
        · simp [h1, h2, List.filter_cons]
        · simp [h1, h2, List.filter_cons]
      · simp [h1, List.filter_cons]

theorem group_matches_total (ms : List (ℕ × ℕ × ℕ)) (bs : List ℕ) :
    totalEntries (group_matches ms bs) = ms.length := by
  suffices h : ∀ (l : List (ℕ × ℕ × ℕ)) (g : Groups),
      totalEntries (l.foldl (markStep bs) g) = totalEntries g + l.length by
    simpa [group_matches, totalEntries] using h ms []
  intro l
  induction l with
  | nil => intro g; simp
  | cons mt rest ih =>
      intro g
      rw [List.foldl_cons, ih]
      show totalEntries (markStep bs g mt) + _ = _
      unfold markStep
      rw [totalEntries_pushOuter]
      simp [List.length_cons]
      omega

theorem totalWidth_offsets (L : List ℕ) (m : ℕ) :
    totalWidth (L.map fun s => (s, s + m)) = L.length * m := by
  induction L with
  | nil => simp [totalWidth]
  | cons s rest ih =>
      unfold totalWidth at ih ⊢
      simp only [List.map_cons, List.sum_cons, Nat.add_sub_cancel_left,
        List.length_cons] at ih ⊢
      rw [ih, Nat.succ_mul]
      omega

theorem offsets_nonempty (L : List ℕ) (m : ℕ) (hm : 1 ≤ m) :
    ∀ p ∈ L.map (fun s => (s, s + m)), p.1 < p.2 := by
  intro p hp
  obtain ⟨s, _, rfl⟩ := List.mem_map.mp hp
  simp only
  omega

theorem countP_unique_key (gm : List ((ℕ × ℕ) × List ℕ)) (k : ℕ × ℕ) (L : List ℕ)
    (q : List ℕ → Bool) :
    (gm.map Prod.fst).Nodup → (k, L) ∈ gm →
    gm.countP (fun e => decide (e.1 = k) && q e.2) = if q L then 1 else 0 := by
  induction gm with
  | nil => intro _ h; simp at h
  | cons e rest ih =>
      intro hnd hmem
      rw [List.map_cons, List.nodup_cons] at hnd
      rw [List.countP_cons]
      rcases List.mem_cons.mp hmem with heq | hmem'
      · subst heq
        have hz : rest.countP (fun e => decide (e.1 = k) && q e.2) = 0 := by
          rw [List.countP_eq_zero]
          intro a ha
          simp only [Bool.and_eq_true, decide_eq_true_eq, not_and]
          intro h1 _
          have hmm : a.1 ∈ List.map Prod.fst rest := List.mem_map_of_mem Prod.fst ha
          rw [h1] at hmm
          exact hnd.1 hmm
        rw [hz]
        simp
      · have hk : e.1 ≠ k := by
          intro hc
          exact hnd.1 (hc ▸ List.mem_map_of_mem Prod.fst hmem')
        rw [ih hnd.2 hmem']
        simp [hk]

/-! ## Claim theorems -/

/-- C2 as stated, over every finite list of intervals `(s, e)`, is false at a
concrete input: the empty interval `(3, 3)` covers no point, yet
`_merge_intervals [(3, 3)] false` keeps it, producing a one-element list
although the empty list represents the same (empty) covered point set — so
the output is not a minimal list with the input's union of points. -/
theorem merge_minimality_counterexample :
    _merge_intervals [((3 : ℕ), (3 : ℕ))] false = [(3, 3)]
    ∧ (∀ x : ℕ, covers ([] : List (ℕ × ℕ)) x ↔ covers [((3 : ℕ), (3 : ℕ))] x)
    ∧ ¬ ((_merge_intervals [((3 : ℕ), (3 : ℕ))] false).length ≤
          ([] : List (ℕ × ℕ)).length) := by
  have hmerge : _merge_intervals [((3 : ℕ), (3 : ℕ))] false = [(3, 3)] := by
    rw [merge_intervals_eq]
    simp [sortIntervals]
    rw [mergeSorted]
  refine ⟨hmerge, ?_, ?_⟩
  · intro x
    simp [covers]
  · rw [hmerge]
    simp

/-- C2 amended: `_merge_intervals` (sort by start, then coalesce an interval
into the running one exactly when its start is at most the running end) maps
any list of nonempty intervals `s < e` — the only shape the pipeline builds,
`[s, s + match_size)` with `match_size ≥ 1` — to a gap-separated chain of
pairwise disjoint, non-touching, nonempty intervals whose set of covered
points equals that of the input, and the result is minimal: no interval list
with the same covered point set has fewer intervals.  (Degenerate empty
intervals are kept verbatim by the code, so minimality needs the
nonemptiness hypothesis; see the counterexample.) -/
theorem merge_intervals_correct (v : List (ℕ × ℕ)) (hne : ∀ p ∈ v, p.1 < p.2) :
    List.Chain' gapped (_merge_intervals v false)
    ∧ (∀ p ∈ _merge_intervals v false, p.1 < p.2)
    ∧ (∀ x, covers (_merge_intervals v false) x ↔ covers v x)
    ∧ (∀ w : List (ℕ × ℕ), (∀ x, covers w x ↔ covers v x) →
        (_merge_intervals v false).length ≤ w.length) := by
  obtain ⟨hchain, hne', hcov, hpair⟩ := merged_props v hne
  refine ⟨hchain, hne', hcov, ?_⟩
  intro w hw
  exact gap_list_minimal _ w hpair hne' (fun x => (hw x).trans (hcov x).symm)

theorem merge_intervals_correct_witness :
    (∀ p ∈ ([(0, 3), (2, 5), (7, 8)] : List (ℕ × ℕ)), p.1 < p.2)
    ∧ (List.Chain' gapped (_merge_intervals ([(0, 3), (2, 5), (7, 8)] : List (ℕ × ℕ)) false)
      ∧ (∀ p ∈ _merge_intervals ([(0, 3), (2, 5), (7, 8)] : List (ℕ × ℕ)) false, p.1 < p.2)
      ∧ (∀ x, covers (_merge_intervals ([(0, 3), (2, 5), (7, 8)] : List (ℕ × ℕ)) false) x ↔
          covers ([(0, 3), (2, 5), (7, 8)] : List (ℕ × ℕ)) x)
      ∧ (∀ w : List (ℕ × ℕ),
          (∀ x, covers w x ↔ covers ([(0, 3), (2, 5), (7, 8)] : List (ℕ × ℕ)) x) →
          (_merge_intervals ([(0, 3), (2, 5), (7, 8)] : List (ℕ × ℕ)) false).length ≤ w.length)) :=
  ⟨by decide, merge_intervals_correct _ (by decide)⟩

/-- C6: the covered-byte count computed by `_check_threshold`'s interval
construction and merge depends only on the set of start offsets: two offset
lists with the same members (permutations, or lists differing only in
duplicated entries) yield equal merged coverage. -/
theorem coverage_set_invariant (m : ℕ) (L1 L2 : List ℕ)
    (hsame : ∀ s, s ∈ L1 ↔ s ∈ L2) :
    totalWidth (_merge_intervals (L1.map fun s => (s, s + m)) false) =
      totalWidth (_merge_intervals (L2.map fun s => (s, s + m)) false) := by
  rcases Nat.eq_zero_or_pos m with rfl | hm
  · have z : ∀ L : List ℕ,
        totalWidth (_merge_intervals (L.map fun s => (s, s + 0)) false) = 0 := by
      intro L
      have h1 := merged_width_le (L.map fun s => (s, s + 0))
      have h2 := totalWidth_offsets L 0
      omega
    rw [z L1, z L2]
  · have hne1 := offsets_nonempty L1 m hm
    have hne2 := offsets_nonempty L2 m hm
    obtain ⟨_, hne1', hcov1, hp1⟩ := merged_props _ hne1
    obtain ⟨_, hne2', hcov2, hp2⟩ := merged_props _ hne2
    have key : _merge_intervals (L1.map fun s => (s, s + m)) false =
        _merge_intervals (L2.map fun s => (s, s + m)) false := by
      apply gap_lists_unique _ _ hp1 hp2 hne1' hne2'
      intro x
      rw [hcov1 x, hcov2 x, covers_offsets, covers_offsets]
      constructor
      · rintro ⟨s, hs, hx⟩; exact ⟨s, (hsame s).mp hs, hx⟩
      · rintro ⟨s, hs, hx⟩; exact ⟨s, (hsame s).mpr hs, hx⟩
    rw [key]

theorem coverage_set_invariant_witness :
    (∀ s : ℕ, s ∈ ([3, 0, 3, 3] : List ℕ) ↔ s ∈ ([0, 3] : List ℕ))
    ∧ totalWidth (_merge_intervals (([3, 0, 3, 3] : List ℕ).map fun s => (s, s + 2)) false) =
        totalWidth (_merge_intervals (([0, 3] : List ℕ).map fun s => (s, s + 2)) false) :=
  ⟨by intro s; simp; omega, coverage_set_invariant 2 _ _ (by intro s; simp; omega)⟩

/-- C7: the merged coverage of offsets `L` with window width `m ≥ 1` is at
most `|L| * m` and, when `L` is nonempty, at least `m`. -/
theorem coverage_bounds (L : List ℕ) (m : ℕ) (hm : 1 ≤ m) :
    totalWidth (_merge_intervals (L.map fun s => (s, s + m)) false) ≤ L.length * m
    ∧ (L ≠ [] →
        m ≤ totalWidth (_merge_intervals (L.map fun s => (s, s + m)) false)) := by
  have hne := offsets_nonempty L m hm
  obtain ⟨_, hne', hcov, hpair⟩ := merged_props _ hne
  constructor
  · have h1 := merged_width_le (L.map fun s => (s, s + m))
    have h2 := totalWidth_offsets L m
    omega
  · intro hL
    obtain ⟨s, hs⟩ := List.exists_mem_of_ne_nil L hL
    have hsc : covers (L.map fun s => (s, s + m)) s :=
      (covers_offsets L m s).mpr ⟨s, hs, le_refl s, by omega⟩
    obtain ⟨p, hp, hps⟩ := (hcov s).mpr hsc
    have hweb : s + m ≤ p.2 := by
      by_contra hb
      have hcovb : covers (L.map fun s => (s, s + m)) p.2 :=
        (covers_offsets L m p.2).mpr ⟨s, hs, by omega, by omega⟩
      exact endpoint_not_covered _ hpair hne' p hp ((hcov p.2).mpr hcovb)
    have hwd : m ≤ p.2 - p.1 := by omega
    have hmem : p.2 - p.1 ∈ (_merge_intervals (L.map fun s => (s, s + m)) false).map
        (fun q => q.2 - q.1) := List.mem_map_of_mem _ hp
    have := List.single_le_sum (fun x _ => Nat.zero_le x) _ hmem
    unfold totalWidth
    omega

/-- C1: for a group with distinct inner keys, `merge_matches` emits the
record `(val_doc_id, train_doc_id, line_num)` exactly once if the merged
covered bytes of the key's offset intervals reach the required coverage
`ceil(val_doc_size * threshold)` and zero times otherwise, and every emitted
record arises this way from some key of the group. -/
theorem decider_emission (v ds m : ℕ) (th : ℚ) (gm : List ((ℕ × ℕ) × List ℕ))
    (hkeys : (gm.map Prod.fst).Nodup) (t l : ℕ) (L : List ℕ)
    (hmem : ((t, l), L) ∈ gm) :
    ((merge_matches v gm m ds th).count (v, t, l) =
      if requiredCoverage ds th ≤
          totalWidth (_merge_intervals (L.map fun s => (s, s + m)) false)
        then 1 else 0)
    ∧ (∀ r ∈ merge_matches v gm m ds th, r.1 = v ∧
        ∃ L', ((r.2.1, r.2.2), L') ∈ gm ∧
          requiredCoverage ds th ≤
            totalWidth (_merge_intervals (L'.map fun s => (s, s + m)) false)) := by
  constructor
  · rw [merge_matches_eq_filter, List.count_eq_countP, List.countP_map,
      List.countP_filter]
    have hcongr : gm.countP
        (fun e => ((fun x => x == (v, t, l)) ∘ fun e => (v, e.1.1, e.1.2)) e &&
          _check_threshold e.2 m ds th) =
        gm.countP (fun e => decide (e.1 = (t, l)) &&
          (fun L' => _check_threshold L' m ds th) e.2) := by
      apply List.countP_congr
      intro e _
      simp only [Function.comp, Bool.and_eq_true, beq_iff_eq, decide_eq_true_eq,
        Prod.mk.injEq, Prod.ext_iff]
      tauto
    rw [hcongr,
      countP_unique_key gm (t, l) L (fun L' => _check_threshold L' m ds th) hkeys hmem]
    exact if_congr (check_threshold_iff L m ds th) rfl rfl
  · intro r hr
    obtain ⟨e, he, hc, rfl⟩ := mem_merge_matches.mp hr
    refine ⟨rfl, e.2, ?_, (check_threshold_iff _ m ds th).mp hc⟩
    simpa using he

theorem decider_emission_witness :
    ((([((1, 2), [0, 3]), ((4, 5), [7])] : List ((ℕ × ℕ) × List ℕ)).map Prod.fst).Nodup
      ∧ ((1, 2), [0, 3]) ∈ ([((1, 2), [0, 3]), ((4, 5), [7])] : List ((ℕ × ℕ) × List ℕ)))
    ∧ (((merge_matches 0 ([((1, 2), [0, 3]), ((4, 5), [7])] : List ((ℕ × ℕ) × List ℕ))
          3 6 (1/2)).count (0, 1, 2) =
        if requiredCoverage 6 (1/2) ≤
            totalWidth (_merge_intervals (([0, 3] : List ℕ).map fun s => (s, s + 3)) false)
          then 1 else 0)
      ∧ (∀ r ∈ merge_matches 0 ([((1, 2), [0, 3]), ((4, 5), [7])] : List ((ℕ × ℕ) × List ℕ))
            3 6 (1/2), r.1 = 0 ∧
          ∃ L', ((r.2.1, r.2.2), L') ∈
              ([((1, 2), [0, 3]), ((4, 5), [7])] : List ((ℕ × ℕ) × List ℕ)) ∧
            requiredCoverage 6 (1/2) ≤
              totalWidth (_merge_intervals (L'.map fun s => (s, s + 3)) false))) :=
  ⟨⟨by decide, by decide⟩,
    decider_emission 0 6 3 (1/2) _ (by decide) 1 2 [0, 3] (by decide)⟩

/-- C5: strictly raising the threshold can only shrink the emitted record
set: every record emitted at threshold `t2 > t1` is also emitted at `t1`. -/
theorem threshold_monotone (groups : Groups) (m : ℕ) {t1 t2 : ℚ} (h : t1 < t2) :
    ∀ r ∈ mark_decide groups m t2, r ∈ mark_decide groups m t1 := by
  intro r hr
  obtain ⟨e, he, hre⟩ := List.mem_flatMap.mp hr
  obtain ⟨en, hen, hc, rfl⟩ := mem_merge_matches.mp hre
  refine List.mem_flatMap.mpr ⟨e, he, mem_merge_matches.mpr ⟨en, hen, ?_, rfl⟩⟩
  rw [check_threshold_iff] at hc ⊢
  exact le_trans (requiredCoverage_mono _ h.le) hc

theorem threshold_monotone_witness :
    ((1 : ℚ)/2 < 1)
    ∧ (∀ r ∈ mark_decide ([((0, 6), [((0, 0), [0, 3])])] : Groups) 3 1,
        r ∈ mark_decide ([((0, 6), [((0, 0), [0, 3])])] : Groups) 3 (1/2)) :=
  ⟨by norm_num, threshold_monotone _ 3 (by norm_num)⟩

/-- C9: with a strictly negative threshold the required coverage
`((doc_size as f64) * threshold).ceil() as usize` saturates to `0`, so the
threshold check accepts every offset list (including the empty one) and
`merge_matches` emits one record per grouped key; hence `mark_decide` emits
every grouped `(validation_doc, training_doc, line)` key. -/
theorem negative_threshold_emits_all (th : ℚ) (hth : th < 0) (ds : ℕ) :
    requiredCoverage ds th = 0
    ∧ (∀ L m, _check_threshold L m ds th = true)
    ∧ (∀ v gm m, merge_matches v gm m ds th = gm.map (fun e => (v, e.1.1, e.1.2)))
    ∧ (∀ (groups : Groups) m,
        mark_decide groups m th =
          groups.flatMap (fun e => e.2.map (fun i => (e.1.1, i.1.1, i.1.2)))) := by
  have h0 := requiredCoverage_neg ds hth
  have hchk : ∀ L m, _check_threshold L m ds th = true := by
    intro L m
    rw [check_threshold_iff, h0]
    exact Nat.zero_le _
  have hmm : ∀ v gm m, merge_matches v gm m ds th = gm.map (fun e => (v, e.1.1, e.1.2)) := by
    intro v gm m
    rw [merge_matches_eq_filter, List.filter_eq_self.mpr (fun e _ => hchk e.2 m)]
  refine ⟨h0, hchk, hmm, ?_⟩
  intro groups m
  unfold mark_decide
  have hfun : ∀ e : (ℕ × ℕ) × List ((ℕ × ℕ) × List ℕ),
      merge_matches e.1.1 e.2 m e.1.2 th = e.2.map (fun i => (e.1.1, i.1.1, i.1.2)) := by
    intro e
    rw [merge_matches_eq_filter, List.filter_eq_self.mpr]
    intro a _
    rw [check_threshold_iff, requiredCoverage_neg _ hth]
    exact Nat.zero_le _
  simp only [hfun]

theorem negative_threshold_emits_all_witness :
    ((-1 : ℚ) < 0)
    ∧ (requiredCoverage 6 (-1) = 0
      ∧ (∀ L m, _check_threshold L m 6 (-1) = true)
      ∧ (∀ v gm m, merge_matches v gm m 6 (-1) = gm.map (fun e => (v, e.1.1, e.1.2)))
      ∧ (∀ (groups : Groups) m,
          mark_decide groups m (-1) =
            groups.flatMap (fun e => e.2.map (fun i => (e.1.1, i.1.1, i.1.2))))) :=
  ⟨by norm_num, negative_threshold_emits_all (-1) (by norm_num) 6⟩

theorem coverage_bounds_witness :
    1 ≤ 3
    ∧ (totalWidth (_merge_intervals (([0, 2] : List ℕ).map fun s => (s, s + 3)) false) ≤
        ([0, 2] : List ℕ).length * 3
      ∧ (([0, 2] : List ℕ) ≠ [] →
          3 ≤ totalWidth (_merge_intervals (([0, 2] : List ℕ).map fun s => (s, s + 3)) false))) :=
  ⟨by decide, coverage_bounds ([0, 2] : List ℕ) 3 (by decide)⟩

/-- C3: the grouping loop resolves each raw match `(path_id, line_num,
sa_pos)` to `val_doc_id = doc_lookup(sa_pos, bs)`,
`val_doc_size = bs[val_doc_id+1] - bs[val_doc_id]` and
`in_doc_pos = sa_pos - bs[val_doc_id]`; the final structure stores, under
outer key `(val_doc_id, val_doc_size)` and inner key `(path_id, line_num)`,
exactly the in-document positions of the matches resolving to those keys (in
input order), and the total number of stored entries equals the number of
input raw matches. -/
theorem grouping_characterization (ms : List (ℕ × ℕ × ℕ)) (bs : List ℕ) :
    (∀ mt : ℕ × ℕ × ℕ, resolveMatch bs mt =
        ((doc_lookup mt.2.2 bs,
          bs.getD (doc_lookup mt.2.2 bs + 1) 0 - bs.getD (doc_lookup mt.2.2 bs) 0),
         (mt.1, mt.2.1), mt.2.2 - bs.getD (doc_lookup mt.2.2 bs) 0))
    ∧ (∀ ok ik, lookupGroup ok ik (group_matches ms bs) =
        (ms.filter (fun mt => decide ((resolveMatch bs mt).1 = ok) &&
            decide ((resolveMatch bs mt).2.1 = ik))).map
          (fun mt => (resolveMatch bs mt).2.2))
    ∧ totalEntries (group_matches ms bs) = ms.length :=
  ⟨fun _ => rfl, fun ok ik => group_matches_lookup ms bs ok ik,
    group_matches_total ms bs⟩

/-- C10: under the stated preconditions (the looked-up index and its
successor are in bounds and bracket `sa_pos`, boundary entries fit in
`u64`), the grouping-loop body performs its two vector accesses, its two
`u64` subtractions and its `usize` conversion without panic or underflow,
and produces exactly the resolved key/value triple. -/
theorem grouping_step_safe (bs : List ℕ) (mt : ℕ × ℕ × ℕ) (lo hi : ℕ)
    (hbs : ∀ b ∈ bs, b < 2 ^ 64)
    (hlo : bs.get? (doc_lookup mt.2.2 bs) = some lo)
    (hhi : bs.get? (doc_lookup mt.2.2 bs + 1) = some hi)
    (h1 : lo ≤ mt.2.2) (h2 : mt.2.2 < hi) :
    markStepChecked bs mt = some (resolveMatch bs mt) := by
  have hhi64 : hi < 2 ^ 64 := hbs hi (List.get?_mem hhi)
  have hlohi : lo ≤ hi := le_trans h1 h2.le
  have hsub : hi - lo < 2 ^ 64 := lt_of_le_of_lt (Nat.sub_le hi lo) hhi64
  have hgetlo : bs.getD (doc_lookup mt.2.2 bs) 0 = lo := by
    rw [List.getD_eq_getElem?_getD, ← List.get?_eq_getElem?, hlo]
    rfl
  have hgethi : bs.getD (doc_lookup mt.2.2 bs + 1) 0 = hi := by
    rw [List.getD_eq_getElem?_getD, ← List.get?_eq_getElem?, hhi]
    rfl
  simp only [markStepChecked, resolveMatch]
  rw [hlo, hhi, hgetlo, hgethi]
  simp [h1, hlohi]
  exact lt_of_le_of_lt (Nat.sub_le hi lo) (by simpa using hhi64)

theorem grouping_step_safe_witness :
    ((∀ b ∈ ([0, 6] : List ℕ), b < 2 ^ 64)
      ∧ ([0, 6] : List ℕ).get? (doc_lookup 3 [0, 6]) = some 0
      ∧ ([0, 6] : List ℕ).get? (doc_lookup 3 [0, 6] + 1) = some 6
      ∧ 0 ≤ 3 ∧ 3 < 6)
    ∧ markStepChecked [0, 6] (0, 0, 3) = some (resolveMatch [0, 6] (0, 0, 3)) :=
  ⟨⟨by decide, by decide, by decide, by decide, by decide⟩,
    grouping_step_safe [0, 6] (0, 0, 3) 0 6 (by decide) (by decide) (by decide)
      (by decide) (by decide)⟩

/-- C4: for a line of byte length `n` and window width `m ≥ 1`, the window
enumeration produces exactly the `n - m + 1` windows at start offsets
`0 .. n - m`, each of length `m`, when `m ≤ n`; and no windows (hence no raw
matches from the line) when `n < m`. -/
theorem window_enumeration (l : List ℕ) (m : ℕ) (hm : 1 ≤ m) :
    (m ≤ l.length →
      windows l m = some ((List.range (l.length - m + 1)).map (fun i => (l.drop i).take m))
      ∧ ∀ ws, windows l m = some ws →
          ws.length = l.length - m + 1 ∧
          ∀ i (hi : i < ws.length),
            ws.get ⟨i, hi⟩ = (l.drop i).take m ∧ (ws.get ⟨i, hi⟩).length = m)
    ∧ (l.length < m → windows l m = some [] ∧
        ∀ occ pid ln, collectLine occ pid ln l m = Except.ok []) := by
  have hm0 : m ≠ 0 := by omega
  constructor
  · intro hmn
    have hcnt : l.length + 1 - m = l.length - m + 1 := by omega
    have hw : windows l m =
        some ((List.range (l.length - m + 1)).map (fun i => (l.drop i).take m)) := by
      unfold windows
      rw [if_neg hm0, hcnt]
    refine ⟨hw, ?_⟩
    intro ws hws
    rw [hw] at hws
    injection hws with hws
    subst hws
    constructor
    · simp
    · intro i hi
      simp only [List.length_map, List.length_range] at hi
      have hget : ((List.range (l.length - m + 1)).map
          (fun i => (l.drop i).take m)).get ⟨i, by simpa using hi⟩ =
          (l.drop i).take m := by
        simp
      refine ⟨hget, ?_⟩
      rw [hget, List.length_take, List.length_drop]
      have : i ≤ l.length - m := by omega
      omega
  · intro hlt
    have hw : windows l m = some [] := by
      unfold windows
      rw [if_neg hm0]
      have : l.length + 1 - m = 0 := by omega
      rw [this]
      rfl
    refine ⟨hw, ?_⟩
    intro occ pid ln
    unfold collectLine
    rw [hw]
    rfl

theorem window_enumeration_witness :
    1 ≤ 2
    ∧ ((2 ≤ ([5, 6, 7] : List ℕ).length →
        windows [5, 6, 7] 2 =
          some ((List.range (([5, 6, 7] : List ℕ).length - 2 + 1)).map
            (fun i => (([5, 6, 7] : List ℕ).drop i).take 2))
        ∧ ∀ ws, windows [5, 6, 7] 2 = some ws →
            ws.length = ([5, 6, 7] : List ℕ).length - 2 + 1 ∧
            ∀ i (hi : i < ws.length),
              ws.get ⟨i, hi⟩ = (([5, 6, 7] : List ℕ).drop i).take 2 ∧
                (ws.get ⟨i, hi⟩).length = 2)
      ∧ (([5, 6, 7] : List ℕ).length < 2 → windows [5, 6, 7] 2 = some [] ∧
          ∀ occ pid ln, collectLine occ pid ln [5, 6, 7] 2 = Except.ok [])) :=
  ⟨by decide, window_enumeration [5, 6, 7] 2 (by decide)⟩

/-- C8 as stated is false at a concrete input: invoking the per-line
collector with `match_size = 0` does not produce a ConfigError error value;
the `slice::windows` call panics instead. -/
theorem zero_match_size_counterexample :
    collectLine (fun _ => []) 0 0 [] 0 = Except.error RunError.panicked
    ∧ RunError.panicked ≠ RunError.configError :=
  ⟨rfl, by decide⟩

/-- C8 amended: `match_size = 0` is not rejected by run-parameter
validation; collection is reached, and every line that reaches window
enumeration aborts the run via the `slice::windows` size-zero panic (never a
ConfigError error value), while a run whose training input has no lines at
all completes normally with zero matches. -/
theorem zero_match_size_panics (occ : List ℕ → List ℕ) (pid : ℕ) :
    (∀ ln l, collectLine occ pid ln l 0 = Except.error RunError.panicked)
    ∧ (∀ lines, lines ≠ [] →
        collect_matches occ pid lines 0 = Except.error RunError.panicked)
    ∧ collect_matches occ pid [] 0 = Except.ok [] := by
  refine ⟨fun ln l => rfl, ?_, rfl⟩
  intro lines hl
  cases lines with
  | nil => exact absurd rfl hl
  | cons a rest => rfl

theorem zero_match_size_panics_witness :
    (([[]] : List (List ℕ)) ≠ [])
    ∧ collect_matches (fun _ => []) 0 ([[]] : List (List ℕ)) 0 =
        Except.error RunError.panicked :=
  ⟨by decide, (zero_match_size_panics (fun _ => []) 0).2.1 [[]] (by decide)⟩

end SADecon
